/-
Verification of the band-fitting and band-identity-resolution pipeline of the
`arpes` repository (`arpes/analysis/band_analysis.py` and
`arpes/fits/fit_models/x_model_mixin.py`).

The Python source is shallowly embedded: floats become rationals (ℚ), numpy
arrays and coordinate tuples become lists of rationals, Python dicts (whose
iteration order is insertion order) become association lists with an
order-preserving insert, and the external nonlinear optimizer (lmfit) is kept
abstract as a function parameter.  `scipy.spatial.distance.euclidean`, whose
values are irrational square roots, is kept abstract as a metric parameter
`d`; the theorems that depend on it only use the properties `0 ≤ d x y` and
`d x x = 0`, which hold for the Euclidean distance.
-/
import Mathlib

namespace Arpes

/-! ## Generic first-minimizer fold

Both `unpack_bands_from_fit` (reference-slice search and permutation search)
and the nearest-neighbor prior search in `fit_bands` follow the same Python
idiom: initialize `best` with a default and `dist = float("inf")`, then loop,
replacing `best` whenever the current key is strictly below `dist`.  We model
`float("inf")` by `Option ℚ` (`none` = infinity) and factor out the common
recursion as `firstMinBy`. -/

/-- The element among `cur :: xs` with the least value of `f`, taking the
earliest element in case of ties (strict `<` is used to replace). -/
def firstMinBy (f : α → ℚ) : α → List α → α
  | cur, [] => cur
  | cur, x :: xs => if f x < f cur then firstMinBy f x xs else firstMinBy f cur xs

/-- One step of the Python loop: state `(best, best_val)` with
`best_val : Option ℚ` standing for `float("inf")` when `none`. -/
def minFoldStep (f : α → ℚ) (st : α × Option ℚ) (x : α) : α × Option ℚ :=
  match st.2 with
  | none => (x, some (f x))
  | some bv => if f x < bv then (x, some (f x)) else st

theorem minFold_eq_firstMinBy (f : α → ℚ) (cur : α) (xs : List α) :
    xs.foldl (minFoldStep f) (cur, some (f cur)) =
      (firstMinBy f cur xs, some (f (firstMinBy f cur xs))) := by
  induction xs generalizing cur with
  | nil => rfl
  | cons x xs ih =>
    simp only [List.foldl_cons, minFoldStep, firstMinBy]
    by_cases h : f x < f cur
    · simp [h, ih]
    · simp [h, ih]

theorem minFold_none_eq_firstMinBy (f : α → ℚ) (b0 x : α) (xs : List α) :
    (x :: xs).foldl (minFoldStep f) (b0, none) =
      (firstMinBy f x xs, some (f (firstMinBy f x xs))) := by
  simp only [List.foldl_cons, minFoldStep]
  exact minFold_eq_firstMinBy f x xs

theorem firstMinBy_mem (f : α → ℚ) (cur : α) (xs : List α) :
    firstMinBy f cur xs ∈ cur :: xs := by
  induction xs generalizing cur with
  | nil => simp [firstMinBy]
  | cons x xs ih =>
    simp only [firstMinBy]
    by_cases h : f x < f cur
    · simp only [h, if_pos]
      have := ih x
      simp only [List.mem_cons] at this ⊢
      tauto
    · simp only [h, if_neg, not_false_iff]
      have := ih cur
      simp only [List.mem_cons] at this ⊢
      tauto

theorem firstMinBy_le (f : α → ℚ) (cur : α) (xs : List α) :
    ∀ y ∈ cur :: xs, f (firstMinBy f cur xs) ≤ f y := by
  induction xs generalizing cur with
  | nil =>
    intro y hy
    simp at hy
    subst hy
    simp [firstMinBy]
  | cons x xs ih =>
    have hx : f (firstMinBy f cur (x :: xs)) ≤ f x ∧ f (firstMinBy f cur (x :: xs)) ≤ f cur ∧
        ∀ y ∈ xs, f (firstMinBy f cur (x :: xs)) ≤ f y := by
      simp only [firstMinBy]
      by_cases h : f x < f cur
      · simp only [h, if_pos]
        exact ⟨ih x x (by simp), le_trans (ih x x (by simp)) (le_of_lt h),
          fun y hy => ih x y (by simp [hy])⟩
      · simp only [h, if_neg, not_false_iff]
        exact ⟨le_trans (ih cur cur (by simp)) (le_of_not_lt h), ih cur cur (by simp),
          fun y hy => ih cur y (by simp [hy])⟩
    intro y hy
    rcases List.mem_cons.mp hy with h1 | h1
    · rw [h1]; exact hx.2.1
    rcases List.mem_cons.mp h1 with h2 | h2
    · rw [h2]; exact hx.1
    · exact hx.2.2 y h2

/-- The result of `firstMinBy` is the first minimizer: every element strictly
before it in the list has a strictly larger value of `f`. -/
theorem firstMinBy_first (f : α → ℚ) (cur : α) (xs : List α) :
    ∃ l1 l2, cur :: xs = l1 ++ firstMinBy f cur xs :: l2 ∧
      ∀ y ∈ l1, f (firstMinBy f cur xs) < f y := by
  induction xs generalizing cur with
  | nil => exact ⟨[], [], by simp [firstMinBy]⟩
  | cons x xs ih =>
    simp only [firstMinBy]
    by_cases h : f x < f cur
    · simp only [h, if_pos]
      obtain ⟨l1, l2, hdec, hlt⟩ := ih x
      refine ⟨cur :: l1, l2, by simp [hdec], ?_⟩
      intro y hy
      rcases List.mem_cons.mp hy with rfl | hy
      · calc f (firstMinBy f x xs) ≤ f x := firstMinBy_le f x xs x (by simp)
          _ < f y := h
      · exact hlt y hy
    · simp only [h, if_neg, not_false_iff]
      obtain ⟨l1, l2, hdec, hlt⟩ := ih cur
      have hrcur : f (firstMinBy f cur xs) ≤ f cur := firstMinBy_le f cur xs cur (by simp)
      generalize hres : firstMinBy f cur xs = r at hdec hlt hrcur ⊢
      cases l1 with
      | nil =>
        simp only [List.nil_append] at hdec
        injection hdec with h1 h2
        exact ⟨[], x :: xs, by simp [← h1], by simp⟩
      | cons c l1 =>
        simp only [List.cons_append, List.cons.injEq] at hdec
        obtain ⟨hc, hdec2⟩ := hdec
        refine ⟨cur :: x :: l1, l2, by simp [hdec2], ?_⟩
        intro y hy
        rcases List.mem_cons.mp hy with h1 | h1
        · rw [h1, hc]; exact hlt c (by simp)
        rcases List.mem_cons.mp h1 with h2 | h2
        · rw [h2]
          have hless : f r < f cur := by rw [hc]; exact hlt c (by simp)
          calc f r < f cur := hless
            _ ≤ f x := le_of_not_lt h
        · exact hlt y (by simp [h2])

/-- If nothing in `xs` beats `cur` strictly, `cur` itself is returned. -/
theorem firstMinBy_eq_self (f : α → ℚ) (cur : α) (xs : List α)
    (h : ∀ x ∈ xs, ¬ f x < f cur) : firstMinBy f cur xs = cur := by
  induction xs with
  | nil => rfl
  | cons x xs ih =>
    simp only [firstMinBy, h x (by simp), if_neg, not_false_iff]
    exact ih fun y hy => h y (by simp [hy])

/-! ## Insertion-ordered dictionaries

Python dicts iterate in insertion order; assigning to an existing key keeps
its position, assigning a fresh key appends.  We model them as association
lists with this exact insert. -/

/-- `d[k] = v` on a Python dict: replace in place if the key exists
(dicts never hold duplicate keys, so replacing the first occurrence is
faithful), otherwise append at the end. -/
def dictInsert [DecidableEq κ] : List (κ × β) → κ → β → List (κ × β)
  | [], k, v => [(k, v)]
  | e :: es, k, v => if e.1 = k then (k, v) :: es else e :: dictInsert es k v

/-- `d.update(u)` / the loop `for k, v in u.items(): d[k] = v`. -/
def dictUpdate [DecidableEq κ] (d u : List (κ × β)) : List (κ × β) :=
  u.foldl (fun acc e => dictInsert acc e.1 e.2) d

/-- Value lookup: first entry with the given key. -/
def dictGet [DecidableEq κ] (k : κ) : List (κ × β) → Option β
  | [] => none
  | e :: es => if e.1 = k then some e.2 else dictGet k es

theorem dictGet_dictInsert [DecidableEq κ] (d : List (κ × β)) (k k' : κ) (v : β) :
    dictGet k (dictInsert d k' v) = if k = k' then some v else dictGet k d := by
  induction d with
  | nil =>
    by_cases h : k = k'
    · subst h; simp [dictInsert, dictGet]
    · simp [dictInsert, dictGet, h, Ne.symm h]
  | cons e es ih =>
    simp only [dictInsert]
    by_cases h1 : e.1 = k'
    · rw [if_pos h1]
      by_cases h2 : k = k'
      · subst h2; simp [dictGet]
      · simp [dictGet, h1, h2, Ne.symm h2]
    · rw [if_neg h1]
      by_cases h2 : e.1 = k
      · have hkk : ¬ k = k' := fun hh => h1 (h2.trans hh)
        simp [dictGet, h2, hkk]
      · simp [dictGet, h2, ih]

theorem dictGet_append [DecidableEq κ] (k : κ) (d1 d2 : List (κ × β)) :
    dictGet k (d1 ++ d2) = (dictGet k d1).orElse (fun _ => dictGet k d2) := by
  induction d1 with
  | nil => simp [dictGet]
  | cons e es ih =>
    by_cases h : e.1 = k <;> simp [dictGet, h, ih]

/-- `dictUpdate` looks up in the update list last-occurrence-first (Python:
later assignments overwrite earlier ones), falling back to the base dict. -/
theorem dictGet_dictUpdate [DecidableEq κ] (d u : List (κ × β)) (k : κ) :
    dictGet k (dictUpdate d u) =
      (dictGet k u.reverse).orElse (fun _ => dictGet k d) := by
  induction u generalizing d with
  | nil => simp [dictUpdate, dictGet]
  | cons e u ih =>
    simp only [dictUpdate, List.foldl_cons, List.reverse_cons] at *
    rw [ih, dictGet_append, dictGet_dictInsert]
    by_cases h : k = e.1
    · cases hu : dictGet k u.reverse <;> simp [dictGet, h, Option.orElse]
    · cases hu : dictGet k u.reverse <;>
        simp [dictGet, h, Ne.symm h, Option.orElse]

/-! ## Cartesian product of coordinate axes

`itertools.product(*lists)` with the rightmost factor varying fastest; used
both by `_iterate_marginals` (via `itertools.product`) and by the result
grids of the sweep functions. -/

def cartProd : List (List α) → List (List α)
  | [] => [[]]
  | xs :: rest => xs.bind fun x => (cartProd rest).map fun t => x :: t

theorem cartProd_length (ls : List (List α)) :
    (cartProd ls).length = (ls.map List.length).prod := by
  induction ls with
  | nil => simp [cartProd]
  | cons xs rest ih =>
    simp only [cartProd, List.map_cons, List.prod_cons, ← ih]
    rw [List.length_bind]
    have hconst : (xs.map (List.length ∘ fun x => (cartProd rest).map fun t => x :: t))
        = List.replicate xs.length (cartProd rest).length := by
      have hmem : ∀ b ∈ xs.map (List.length ∘ fun x => (cartProd rest).map fun t => x :: t),
          b = (cartProd rest).length := by
        intro b hb
        simp only [List.mem_map, Function.comp] at hb
        obtain ⟨x, _, rfl⟩ := hb
        simp
      have h2 := List.eq_replicate_of_mem hmem
      simpa using h2
    rw [hconst, List.sum_replicate, smul_eq_mul]


/-! ## Permutation enumeration

`itertools.permutations(range(k))` enumerates all `k!` index tuples in
lexicographic order: the first element runs over the pool in pool order, and
the remainder recursively enumerates the pool with that element removed. -/

def permsOfFuel : ℕ → List ℕ → List (List ℕ)
  | _, [] => [[]]
  | 0, _ :: _ => []
  | fuel + 1, l@(_ :: _) =>
      (List.range l.length).bind fun i =>
        (permsOfFuel fuel (l.eraseIdx i)).map fun p => l.getD i 0 :: p

/-- `itertools.permutations(range(k))`. -/
def permsLex (k : ℕ) : List (List ℕ) := permsOfFuel k (List.range k)

theorem perm_cons_getD_eraseIdx (l : List ℕ) (i : ℕ) (h : i < l.length) :
    l.Perm (l.getD i 0 :: l.eraseIdx i) := by
  have h1 : l.getD i 0 = l[i] := by
    simp [List.getD_eq_getElem?_getD, List.getElem?_eq_getElem h]
  rw [h1, List.eraseIdx_eq_take_drop_succ]
  conv_lhs => rw [← List.take_append_drop i l, List.drop_eq_getElem_cons h]
  exact List.perm_middle

theorem exists_idx_of_mem {x : ℕ} {l : List ℕ} (h : x ∈ l) :
    ∃ i, i < l.length ∧ l.getD i 0 = x ∧ l.eraseIdx i = l.erase x := by
  induction l with
  | nil => cases h
  | cons e es ih =>
    by_cases he : e = x
    · subst he
      exact ⟨0, by simp, by simp, by simp⟩
    · have hx : x ∈ es := by
        rcases List.mem_cons.mp h with h1 | h1
        · exact absurd h1.symm he
        · exact h1
      obtain ⟨i, hi, hg, he2⟩ := ih hx
      refine ⟨i + 1, by simpa using hi, by simpa using hg, ?_⟩
      rw [List.eraseIdx_cons_succ, he2, List.erase_cons_tail]
      simpa using he

theorem mem_permsOfFuel {fuel : ℕ} : ∀ {l : List ℕ}, fuel = l.length →
    ∀ {p : List ℕ}, p ∈ permsOfFuel fuel l ↔ p.Perm l := by
  induction fuel with
  | zero =>
    intro l hl p
    have : l = [] := by
      cases l with
      | nil => rfl
      | cons x xs => simp at hl
    subst this
    simp [permsOfFuel]
  | succ n ih =>
    intro l hl p
    cases l with
    | nil => simp at hl
    | cons x xs =>
      simp only [permsOfFuel, List.mem_bind, List.mem_map, List.mem_range]
      constructor
      · rintro ⟨i, hi, q, hq, rfl⟩
        have hlen : n = ((x :: xs).eraseIdx i).length := by
          rw [List.length_eraseIdx_of_lt hi]
          simp at hl ⊢
          omega
        have hperm : q.Perm ((x :: xs).eraseIdx i) := (ih hlen).mp hq
        exact ((hperm.cons _).trans (perm_cons_getD_eraseIdx _ i hi).symm)
      · intro hp
        cases p with
        | nil =>
          have := hp.length_eq
          simp at this
        | cons y q =>
          have hy : y ∈ x :: xs := hp.subset (by simp)
          obtain ⟨i, hi, hg, he⟩ := exists_idx_of_mem hy
          have hq : q.Perm ((x :: xs).erase y) :=
            (List.cons_perm_iff_perm_erase.mp hp).2
          have hlen : n = ((x :: xs).eraseIdx i).length := by
            rw [List.length_eraseIdx_of_lt hi]
            simp at hl ⊢
            omega
          exact ⟨i, hi, q, (ih hlen).mpr (he ▸ hq), by rw [hg]⟩

theorem mem_permsLex {k : ℕ} {p : List ℕ} :
    p ∈ permsLex k ↔ p.Perm (List.range k) :=
  mem_permsOfFuel (by simp)

theorem permsLex_ne_nil (k : ℕ) : permsLex k ≠ [] := by
  intro h
  have : List.range k ∈ permsLex k := mem_permsLex.mpr (List.Perm.refl _)
  rw [h] at this
  cases this

/-- The first permutation enumerated is the identity arrangement (the pool in
its original order). -/
theorem permsOfFuel_head (l : List ℕ) : (permsOfFuel l.length l).head? = some l := by
  induction l with
  | nil => rfl
  | cons x xs ih =>
    show (permsOfFuel (xs.length + 1) (x :: xs)).head? = _
    simp only [permsOfFuel, List.length_cons, List.range_succ_eq_map, List.cons_bind,
      List.head?_append, List.eraseIdx_cons_zero, List.getD_cons_zero, List.head?_map, ih]
    rfl

theorem permsLex_head (k : ℕ) : (permsLex k).head? = some (List.range k) := by
  have := permsOfFuel_head (List.range k)
  simpa [permsLex] using this

/-- `[closest_prefixes[p_i] for p_i in p]`. -/
def applyIdx (l : List α) (d : α) (p : List ℕ) : List α := p.map fun i => l.getD i d

theorem map_getD_range (l : List α) (d : α) :
    (List.range l.length).map (fun i => l.getD i d) = l := by
  induction l with
  | nil => rfl
  | cons x xs ih =>
    rw [List.length_cons, List.range_succ_eq_map, List.map_cons, List.map_map]
    have hcomp : ((fun i => (x :: xs).getD i d) ∘ Nat.succ) = fun i => xs.getD i d := by
      funext i
      simp
    rw [hcomp, ih, List.getD_cons_zero]

/-- Selecting entries of `l` along a permutation of `range l.length` yields a
permutation of `l`. -/
theorem applyIdx_perm (l : List α) (d : α) (p : List ℕ)
    (hp : p.Perm (List.range l.length)) : (applyIdx l d p).Perm l := by
  have h1 : (applyIdx l d p).Perm ((List.range l.length).map fun i => l.getD i d) :=
    hp.map _
  rw [map_getD_range] at h1
  exact h1

/-! ## Coordinates -/

/-- A frozen coordinate tuple: the fixed values of all non-broadcast axes
identifying one slice. -/
abbrev Coord := List ℚ

/-- `np.dot(coord, frozen_coord)` on coordinate tuples. -/
def dotProd (a b : Coord) : ℚ := (List.zipWith (fun x y => x * y) a b).sum

/-- `delta = np.array(c) - frozen_coordinate; delta.dot(delta)`: the squared
Euclidean distance between coordinate tuples used by `fit_bands`. -/
def sqDist (a b : Coord) : ℚ := (List.zipWith (fun x y => (x - y) ^ 2) a b).sum

/-! ## `fit_bands` neighbor-prior selection (band_analysis.py lines 507-518)

Embedded exactly as written: `closest_model_params` starts at
`initial_fits`, `dist` starts at `float("inf")` (modelled as
`none : Option ℚ`) and — as in the source — is never reassigned inside the
loop, so `current_distance < dist` compares against infinity on every
iteration.  `isMdc` is the `direction == "mdc"` conjunct of the guard. -/

def closestModelParams (initialFits : P) (allFitParameters : List (Coord × P))
    (frozenCoordinate : Coord) (isMdc : Bool) : P :=
  (allFitParameters.foldl
    (fun st cv =>
      let currentDistance := sqDist cv.1 frozenCoordinate
      let ltDist : Bool := match st.2 with
        | none => true
        | some dv => decide (currentDistance < dv)
      if ltDist && isMdc then (cv.2, st.2) else st)
    (initialFits, (none : Option ℚ))).1

theorem closestModelParams_aux (cache : List (Coord × P)) (b : P) (fc : Coord) :
    cache.foldl
      (fun st cv =>
        let currentDistance := sqDist cv.1 fc
        let ltDist : Bool := match st.2 with
          | none => true
          | some dv => decide (currentDistance < dv)
        if ltDist && true then (cv.2, st.2) else st)
      (b, (none : Option ℚ)) = ((cache.map Prod.snd).getLastD b, none) := by
  induction cache generalizing b with
  | nil => rfl
  | cons cv rest ih =>
    simp only [List.foldl_cons, List.map_cons, List.getLastD_cons]
    exact ih cv.2

/-- What the `fit_bands` prior search actually computes in mdc mode: because
`dist` is never updated, every cache entry passes the comparison and the
parameters of the **last** already-fit entry in insertion order win, however
far away its coordinate is. -/
theorem closestModelParams_eq_last (initialFits : P) (cache : List (Coord × P))
    (fc : Coord) :
    closestModelParams initialFits cache fc true =
      (cache.map Prod.snd).getLastD initialFits := by
  unfold closestModelParams
  rw [closestModelParams_aux]

/-! ## `unpack_bands_from_fit` (band_analysis.py lines 92-199) -/

/-- One lmfit parameter: fitted value and standard error. -/
structure ParamVal where
  value : ℚ
  stderr : ℚ
deriving DecidableEq

/-- An lmfit `ModelResult` as used by `unpack_bands_from_fit`: the ordered
component prefixes of the composite model, and parameter lookup by
(prefix-qualified) name. -/
structure ModelResult where
  components : List String
  params : String → ParamVal

abbrev Vec3 := ℚ × ℚ × ℚ

/-- `as_vector` (lines 133-157):
`(sigma, amplitude, center) * weights / (1 + stderr)`, elementwise. -/
def asVector (weights : Vec3) (m : ModelResult) (pfx : String) : Vec3 :=
  ((m.params (pfx ++ "sigma")).value * weights.1 /
      (1 + (m.params (pfx ++ "sigma")).stderr),
   (m.params (pfx ++ "amplitude")).value * weights.2.1 /
      (1 + (m.params (pfx ++ "amplitude")).stderr),
   (m.params (pfx ++ "center")).value * weights.2.2 /
      (1 + (m.params (pfx ++ "center")).stderr))

/-- `sum(dist_mat[i, p_i] for i, p_i in enumerate(p))`. -/
def traceOf (distMat : ℕ → ℕ → ℚ) (p : List ℕ) : ℚ :=
  (p.enum.map fun ip => distMat ip.1 ip.2).sum

/-- The permutation-search loop (lines 190-196): `best_arrangement` starts
at `tuple(range(len(prefixes)))`, `best_trace` at `float("inf")`, and a
permutation replaces the best one only under strict `<`. -/
def bestArrangement (distMat : ℕ → ℕ → ℚ) (k : ℕ) : List ℕ :=
  ((permsLex k).foldl (minFoldStep (traceOf distMat)) (List.range k, none)).1

theorem bestArrangement_eq_firstMinBy (f : ℕ → ℕ → ℚ) (k : ℕ) (p : List ℕ)
    (ps : List (List ℕ)) (h : permsLex k = p :: ps) :
    bestArrangement f k = firstMinBy (traceOf f) p ps := by
  unfold bestArrangement
  rw [h, minFold_none_eq_firstMinBy]

theorem bestArrangement_mem (f : ℕ → ℕ → ℚ) (k : ℕ) :
    bestArrangement f k ∈ permsLex k := by
  obtain ⟨p, ps, h⟩ := List.exists_cons_of_ne_nil (permsLex_ne_nil k)
  rw [bestArrangement_eq_firstMinBy f k p ps h, h]
  exact firstMinBy_mem _ p ps

theorem bestArrangement_perm (f : ℕ → ℕ → ℚ) (k : ℕ) :
    (bestArrangement f k).Perm (List.range k) :=
  mem_permsLex.mp (bestArrangement_mem f k)

/-- One entry of `identified_by_coordinate`: frozen coordinate ↦ (resolved
prefix ordering, fit result). -/
abbrev PoolEntry := Coord × (List String × ModelResult)

/-- The closest-reference search of `unpack_bands_from_fit`
(lines 163-170): minimize the raw **dot product**
`np.dot(coord, frozen_coord)` over the already-identified coordinates
(iteration order = insertion order), `dist` starting at `float("inf")` and
updated on every strict improvement. -/
def selectRef (pool : List PoolEntry) (fc : Coord) : Option PoolEntry :=
  (pool.foldl
    (fun st e =>
      let currentDist := dotProd e.1 fc
      match st.2 with
      | none => (some e, some currentDist)
      | some dv => if currentDist < dv then (some e, some currentDist) else st)
    ((none : Option PoolEntry), (none : Option ℚ))).1

theorem selectRef_aux (fc : Coord) (es : List PoolEntry) (e : PoolEntry) :
    es.foldl
      (fun st x =>
        let currentDist := dotProd x.1 fc
        match st.2 with
        | none => (some x, some currentDist)
        | some dv => if currentDist < dv then (some x, some currentDist) else st)
      (some e, some (dotProd e.1 fc)) =
      (some (firstMinBy (fun x => dotProd x.1 fc) e es),
       some (dotProd (firstMinBy (fun x => dotProd x.1 fc) e es).1 fc)) := by
  induction es generalizing e with
  | nil => rfl
  | cons x es ih =>
    simp only [List.foldl_cons, firstMinBy]
    by_cases h : dotProd x.1 fc < dotProd e.1 fc
    · simp only [h, if_pos, ite_true]
      exact ih x
    · simp only [h, if_neg, not_false_iff, ite_false]
      exact ih e

theorem selectRef_nil (fc : Coord) : selectRef [] fc = none := rfl

theorem selectRef_cons (fc : Coord) (e : PoolEntry) (es : List PoolEntry) :
    selectRef (e :: es) fc = some (firstMinBy (fun x => dotProd x.1 fc) e es) :=
  congrArg Prod.fst (selectRef_aux fc es e)

/-- Every element of `dictInsert d k v` is an old entry or the new one. -/
theorem mem_dictInsert [DecidableEq κ] (d : List (κ × β)) (k : κ) (v : β) :
    ∀ e ∈ dictInsert d k v, e ∈ d ∨ e = (k, v) := by
  induction d with
  | nil => intro e he; simp [dictInsert] at he; simp [he]
  | cons x xs ih =>
    intro e he
    simp only [dictInsert] at he
    by_cases h : x.1 = k
    · rw [if_pos h] at he
      rcases List.mem_cons.mp he with h1 | h1
      · simp [h1]
      · simp [h1]
    · rw [if_neg h] at he
      rcases List.mem_cons.mp he with h1 | h1
      · simp [h1]
      · rcases ih e h1 with h2 | h2
        · simp [h2]
        · simp [h2]

/-- The pairwise distance matrix of lines 178-188:
`dist_mat[i, j] = euclidean(as_vector(fit_result, prefixes[i]),
as_vector(closest_fit, closest_prefixes[j]))`. -/
def slcDistMat (d : Vec3 → Vec3 → ℚ) (weights : Vec3) (tmpl : List String)
    (fr : ModelResult) (closest : List String × ModelResult) : ℕ → ℕ → ℚ :=
  fun i j => d (asVector weights fr (tmpl.getD i ""))
    (asVector weights closest.2 (closest.1.getD j ""))

/-- One iteration of the `unpack_bands_from_fit` main loop (lines 161-199)
for the slice at frozen coordinate `fc` with fit result `fr`.

`d` stands for `scipy.spatial.distance.euclidean` on weighted component
vectors (kept abstract because its values are irrational); `tmpl` is
`prefixes`, the component ordering of the template fit
(`band_results.values[0]`).  Returns the updated `identified_by_coordinate`
pool and the `ordered_prefixes` recorded for this slice. -/
def unpackStep (d : Vec3 → Vec3 → ℚ) (weights : Vec3) (tmpl : List String)
    (pool : List PoolEntry) (fc : Coord) (fr : ModelResult) :
    List PoolEntry × List String :=
  let found := selectRef pool fc
  let pool1 := if found.isSome then pool else dictInsert pool fc (fr.components, fr)
  let closest := found.getD (fc, (fr.components, fr))
  let ordered := applyIdx closest.2.1 ""
    (bestArrangement (slcDistMat d weights tmpl fr closest.2) tmpl.length)
  (dictInsert pool1 fc (ordered, fr), ordered)

/-- The full sweep of `unpack_bands_from_fit` over the enumerated slices,
threading the `identified_by_coordinate` pool and collecting the per-slice
assignment written into `identified_band_results`. -/
def unpackLoop (d : Vec3 → Vec3 → ℚ) (weights : Vec3) (tmpl : List String) :
    List (Coord × ModelResult) → List PoolEntry →
    List PoolEntry × List (Coord × List String)
  | [], pool => (pool, [])
  | (fc, fr) :: rest, pool =>
    let step := unpackStep d weights tmpl pool fc fr
    let next := unpackLoop d weights tmpl rest step.1
    (next.1, (fc, step.2) :: next.2)

/-! ## Patterned-band interpolation
(`_is_between`, lines 411-413; `_interpolate_intersecting_fragments`,
lines 546-579) -/

/-- `_is_between`: after sorting the two endpoints, `y0 <= x <= y1`. -/
def isBetween (x y0 y1 : ℚ) : Bool :=
  decide (min y0 y1 ≤ x) && decide (x ≤ max y0 y1)

/-- Two-component indexing `point[coord_index]` on a control point. -/
def getCoord (p : ℚ × ℚ) (i : ℕ) : ℚ := if i = 0 then p.1 else p.2

/-- `_interpolate_intersecting_fragments`: for every consecutive
(`itertools.pairwise`) pair of control points whose `coordIndex` components
bracket `coord`, yield `(coord, linearly interpolated other component)`,
with the two source branches for ascending/descending bracketing kept as
written. -/
def interpolateIntersectingFragments (coord : ℚ) (coordIndex : ℕ)
    (points : List (ℚ × ℚ)) : List (ℚ × ℚ) :=
  (points.zip points.tail).filterMap fun pq =>
    let pointLow := pq.1
    let pointHigh := pq.2
    let coordOtherIndex := 1 - coordIndex
    let checkCoordLow := getCoord pointLow coordIndex
    let checkCoordHigh := getCoord pointHigh coordIndex
    if isBetween coord checkCoordLow checkCoordHigh then
      if checkCoordLow < checkCoordHigh then
        some (coord,
          (coord - checkCoordLow) / (checkCoordHigh - checkCoordLow) *
              (getCoord pointHigh coordOtherIndex - getCoord pointLow coordOtherIndex) +
            getCoord pointLow coordOtherIndex)
      else
        some (coord,
          (coord - checkCoordHigh) / (checkCoordLow - checkCoordHigh) *
              (getCoord pointLow coordOtherIndex - getCoord pointHigh coordOtherIndex) +
            getCoord pointHigh coordOtherIndex)
    else none

/-- The canonical two-point linear interpolation both source branches
compute when the bracketing interval is nondegenerate. -/
def lerpAt (coord : ℚ) (cLow cHigh oLow oHigh : ℚ) : ℚ :=
  oLow + (coord - cLow) * (oHigh - oLow) / (cHigh - cLow)

theorem fragment_branches_eq_lerp (coord : ℚ) (ci : ℕ) (pLow pHigh : ℚ × ℚ)
    (hb : isBetween coord (getCoord pLow ci) (getCoord pHigh ci) = true)
    (hne : getCoord pLow ci ≠ getCoord pHigh ci) :
    (fun pq : (ℚ × ℚ) × (ℚ × ℚ) =>
      let pointLow := pq.1
      let pointHigh := pq.2
      let coordOtherIndex := 1 - ci
      let checkCoordLow := getCoord pointLow ci
      let checkCoordHigh := getCoord pointHigh ci
      if isBetween coord checkCoordLow checkCoordHigh then
        if checkCoordLow < checkCoordHigh then
          some (coord,
            (coord - checkCoordLow) / (checkCoordHigh - checkCoordLow) *
                (getCoord pointHigh coordOtherIndex - getCoord pointLow coordOtherIndex) +
              getCoord pointLow coordOtherIndex)
        else
          some (coord,
            (coord - checkCoordHigh) / (checkCoordLow - checkCoordHigh) *
                (getCoord pointLow coordOtherIndex - getCoord pointHigh coordOtherIndex) +
              getCoord pointHigh coordOtherIndex)
      else none) (pLow, pHigh) =
      some (coord, lerpAt coord (getCoord pLow ci) (getCoord pHigh ci)
        (getCoord pLow (1 - ci)) (getCoord pHigh (1 - ci))) := by
  simp only [hb, if_true]
  set cL := getCoord pLow ci
  set cH := getCoord pHigh ci
  set oL := getCoord pLow (1 - ci)
  set oH := getCoord pHigh (1 - ci)
  by_cases hlt : cL < cH
  · simp only [hlt, if_pos, Option.some.injEq, Prod.mk.injEq, true_and, lerpAt]
    have hds : cH - cL ≠ 0 := sub_ne_zero.mpr (ne_of_gt hlt)
    field_simp
    ring
  · simp only [hlt, if_neg, not_false_iff, Option.some.injEq, Prod.mk.injEq, true_and, lerpAt]
    have hgt : cH < cL := lt_of_le_of_ne (le_of_not_lt hlt) (fun h => hne h.symm)
    have hds : cL - cH ≠ 0 := sub_ne_zero.mpr (ne_of_gt hgt)
    have hds2 : cH - cL ≠ 0 := sub_ne_zero.mpr (ne_of_lt hgt)
    field_simp
    ring

theorem zipConsec_getD_mem (points : List (ℚ × ℚ)) (i : ℕ)
    (h : i + 1 < points.length) :
    (points.getD i (0, 0), points.getD (i + 1) (0, 0)) ∈ points.zip points.tail := by
  rw [List.mem_iff_getElem?]
  refine ⟨i, ?_⟩
  rw [List.getElem?_zip_eq_some]
  have h1 : i < points.length := by omega
  constructor
  · simp [List.getD_eq_getElem?_getD, List.getElem?_eq_getElem h1]
  · simp [List.getElem?_tail, List.getD_eq_getElem?_getD, List.getElem?_eq_getElem h]

theorem mem_zipConsec (points : List (ℚ × ℚ)) (pq : (ℚ × ℚ) × (ℚ × ℚ))
    (h : pq ∈ points.zip points.tail) :
    ∃ i, i + 1 < points.length ∧
      points.getD i (0, 0) = pq.1 ∧ points.getD (i + 1) (0, 0) = pq.2 := by
  rw [List.mem_iff_getElem?] at h
  obtain ⟨i, hi⟩ := h
  rw [List.getElem?_zip_eq_some] at hi
  obtain ⟨h1, h2⟩ := hi
  rw [List.getElem?_tail] at h2
  have hlt : i + 1 < points.length := by
    by_contra hc
    rw [List.getElem?_eq_none (by omega)] at h2
    cases h2
  refine ⟨i, hlt, ?_, ?_⟩
  · simp [List.getD_eq_getElem?_getD, h1]
  · simp [List.getD_eq_getElem?_getD, h2]

/-! ## `_build_params` (lines 596-629) -/

/-- One lmfit parameter-hint sub-dict: keys `value`, `min`, `max`. -/
structure SubParams where
  value : Option ℚ
  lo : Option ℚ
  hi : Option ℚ
deriving DecidableEq

/-- The per-band parameter dict handled by `_build_params`: entries for the
keys `"center"`, `"sigma"`, `"amplitude"` and the scalar `"stray"` entry
read by `resolve_partial_bands_from_description`. -/
structure BandParams where
  center : Option SubParams
  sigma : Option SubParams
  amplitude : Option SubParams
  strayKey : Option ℚ
deriving DecidableEq

def bpEmpty : BandParams := ⟨none, none, none, none⟩

def spEmpty : SubParams := ⟨none, none, none⟩

/-- `np.percentile(a, q)` with numpy's default linear interpolation between
order statistics. -/
def percentile (q : ℚ) (xs : List ℚ) : ℚ :=
  let sorted := xs.mergeSort fun a b => decide (a ≤ b)
  let pos := q * ((sorted.length : ℚ) - 1) / 100
  let i := ⌊pos⌋.toNat
  let lo := sorted.getD i 0
  let hi := sorted.getD (i + 1) lo
  lo + (pos - (i : ℚ)) * (hi - lo)

/-- `marginal.sel({dim: slice(lo, hi)})` on an ascending 1D coordinate:
keep the (coordinate, intensity) samples with `lo ≤ x ≤ hi` (xarray label
slices are inclusive at both ends). -/
def selRange (marginal : List (ℚ × ℚ)) (lo hi : ℚ) : List (ℚ × ℚ) :=
  marginal.filter fun s => decide (lo ≤ s.1) && decide (s.1 ≤ hi)

/-- The dict contents after `_build_params` runs: `center` is replaced by a
fresh `{"value": center}` sub-dict, then — when a stray is given — its
`min`/`max` are set to `center ∓ stray`, the (possibly pre-existing) sigma
sub-dict's value is set to the stray, and — when a marginal is also given —
the (possibly pre-existing) amplitude sub-dict's value is set to the
80th-minus-20th percentile spread of the intensities within
`1.2 * stray` of the center. -/
def buildParamsVal (params : BandParams) (center : ℚ) (centerStray : Option ℚ)
    (marginal : Option (List (ℚ × ℚ))) : BandParams :=
  let p1 : BandParams := { params with center := some ⟨some center, none, none⟩ }
  match centerStray with
  | none => p1
  | some stray =>
    let p2 : BandParams :=
      { p1 with center := some ⟨some center, some (center - stray), some (center + stray)⟩ }
    let p3 : BandParams :=
      { p2 with sigma := some { p2.sigma.getD spEmpty with value := some stray } }
    match marginal with
    | none => p3
    | some m =>
      let nearCenter := selRange m (center - 12 / 10 * stray) (center + 12 / 10 * stray)
      let vals := nearCenter.map Prod.snd
      let low := percentile 20 vals
      let high := percentile 80 vals
      { p3 with amplitude := some { p3.amplitude.getD spEmpty with value := some (high - low) } }

abbrev ParamsRef := ℕ

abbrev ParamsStore := List BandParams

/-- `_build_params` as a heap operation: `r` is a reference to the caller's
dict (the per-band `params` entry of `band_set`); the referenced dict is
updated **in place** (`params.update(...)`, `params[...] = ...`) and the
function returns the very same reference (`return params`). -/
def buildParams (store : ParamsStore) (r : ParamsRef) (center : ℚ)
    (centerStray : Option ℚ) (marginal : Option (List (ℚ × ℚ))) :
    ParamsStore × ParamsRef :=
  (store.set r (buildParamsVal (store.getD r bpEmpty) center centerStray marginal), r)

/-! ## `fit_patterned_bands` (lines 250-408) -/

/-- One entry of `band_set`: the requested band's name, the dimensions its
control points are laid out along, the control points, and the shared
per-band parameter dict. -/
structure BandDesc where
  name : String
  dims : List String
  points : List (ℚ × ℚ)
  params : BandParams

/-- One resolved partial band at one slice. -/
structure FragBand where
  name : String
  isBackground : Bool
  params : BandParams

/-- `resolve_partial_bands_from_description` (lines 299-337): pick the
band's patterning coordinate out of this slice's `coord_dict`, interpolate
the control points there, and emit one partial band per intersecting
fragment, named `f"{name}_{i}"`.  (In the source a band whose `dims` miss
the coordinate dict would raise `StopIteration` out of `next`; the callers
always pass a matching dimension, and we return `[]` for totality.)
The per-band parameter dict is given here by value (`buildParamsVal`); the
in-place aliasing of that dict is handled by `buildParams` above. -/
def resolveBandsFromDescription (arrDims : List String) (stray : Option ℚ)
    (coordDict : List (String × ℚ)) (marginal : Option (List (ℚ × ℚ)))
    (bd : BandDesc) : List FragBand :=
  match bd.dims.find? fun dname => (dictGet dname coordDict).isSome with
  | none => []
  | some coordName =>
    let coordVal := (dictGet coordName coordDict).getD 0
    let coordIndex := arrDims.indexOf coordName
    let locs := interpolateIntersectingFragments coordVal coordIndex bd.points
    locs.enum.map fun il =>
      { name := bd.name ++ "_" ++ toString il.1
        isBackground := false
        params := buildParamsVal bd.params il.2.2
          ((bd.params.strayKey).orElse fun _ => stray) marginal }

/-- The per-slice body of the `fit_patterned_bands` sweep (lines 354-383).
The nonlinear optimizer (`composite_model.fit`) is abstracted as `fitOp`.
Returns `none` — the sentinel stored by `band_results.loc[coord_dict] =
None` — when no model could be instantiated at this slice.  (In the source
the truthy `background` flag has already been replaced by the
`AffineBackgroundBand` class, so the `background is not None` conjunct of
the guard is always true; the appended background entry is only usable when
the flag was truthy, which is the only configuration the callers exercise,
so the flag gates the append here.) -/
def fitPatternedSlice (fitOp : List FragBand → List (ℚ × ℚ) → FitRes)
    (arrDims : List String) (stray : Option ℚ) (bandSet : List BandDesc)
    (background : Bool) (coordDict : List (String × ℚ))
    (marginal : List (ℚ × ℚ)) : Option FitRes :=
  let resolved := bandSet.map (resolveBandsFromDescription arrDims stray coordDict (some marginal))
  let nonEmptyBands := resolved.filter fun p => !p.isEmpty
  let withBg := if background && !nonEmptyBands.isEmpty then
      nonEmptyBands ++ [[⟨"", true, bpEmpty⟩]]
    else nonEmptyBands
  let internalModels := withBg.join
  if internalModels.isEmpty then none else some (fitOp internalModels marginal)

/-- The full sweep (lines 347-383): one result cell per free-direction
coordinate combination, in `arr.G.iterate_axis` (row-major product) order;
`marginalOf` stands for the marginal selection `arr.sel(coord_dict)`. -/
def fitPatternedBands (fitOp : List FragBand → List (ℚ × ℚ) → FitRes)
    (arrDims : List String) (stray : Option ℚ) (bandSet : List BandDesc)
    (background : Bool) (freeDirections : List String) (axes : List (List ℚ))
    (marginalOf : List (String × ℚ) → List (ℚ × ℚ)) :
    List (List (String × ℚ) × Option FitRes) :=
  (cartProd axes).map fun vs =>
    let coordDict := freeDirections.zip vs
    (coordDict,
      fitPatternedSlice fitOp arrDims stray bandSet background coordDict (marginalOf coordDict))

/-- The residual aggregation (lines 389-398): the residual grid starts at
zero everywhere and cells holding the `None` sentinel are skipped
(`continue`), leaving their residual at zero. -/
def residualGrid (resid : FitRes → ℚ)
    (cells : List (List (String × ℚ) × Option FitRes)) :
    List (List (String × ℚ) × ℚ) :=
  cells.map fun ce => (ce.1, match ce.2 with | none => 0 | some f => resid f)

/-! ## `_iterate_marginals` (lines 582-593) -/

/-- A labeled spectrum as `_iterate_marginals` uses it: named coordinate
axes and the xarray selection `arr.sel(coords)`, kept abstract. -/
structure Spectrum (α : Type u) where
  coords : String → List ℚ
  sel : List (String × ℚ) → α

/-- `_iterate_marginals` with explicit directions:
`itertools.product(*[arr.coords[d] for d in iterate_directions])`, yielding
`(arr.sel(coords), coords)` per selector tuple. -/
def iterateMarginals (arr : Spectrum α) (iterateDirections : List String) :
    List (α × List (String × ℚ)) :=
  (cartProd (iterateDirections.map arr.coords)).map fun ss =>
    let coords := iterateDirections.zip ss
    (arr.sel coords, coords)

/-! ## `XModelMixin.__add__` and `XAdditiveCompositeModel`
(x_model_mixin.py lines 227-233, 319-336) -/

abbrev LfParams := List (String × ℚ)

/-- A 1D lmfit-style model as the mixin composes it: the prefix namespacing
its parameters, evaluation on a full parameter set, `guess`, and the
`make_params` defaults. -/
structure PModel where
  pfx : String
  evalFn : ℚ → LfParams → ℚ
  guessFn : List ℚ → List ℚ → LfParams
  makeParamsFn : LfParams

/-- The prefix-qualified parameter subset belonging to one component. -/
def paramSubset (ps : LfParams) (pfx : String) : LfParams :=
  ps.filter fun kv => pfx.isPrefixOf kv.1

/-- A component model reads only its own prefixed parameters (lmfit models
look parameters up as `prefix + name`). -/
def ReadsOwnParams (m : PModel) : Prop :=
  ∀ x ps, m.evalFn x ps = m.evalFn x (paramSubset ps m.pfx)

/-- `a + b` (`XModelMixin.__add__` builds
`XAdditiveCompositeModel(self, other, operator.add)`).

Modelled from the spec: the evaluation semantics of
`lmfit.CompositeModel(left, right, operator.add)` — the composite evaluates
to `op(left(...), right(...))`, i.e. the sum — live in the external lmfit
package, not in this repository, and are taken from the spec's
"composition is value-preserving" contract.  `guess` is this repository's
`XAdditiveCompositeModel.guess` (lines 322-336): start from
`make_params()`, accumulate each component's guess into `guessed`
(`dict.update`), then write the accumulated entries over the defaults. -/
def addComposite (a b : PModel) : PModel where
  pfx := ""
  evalFn := fun x ps => a.evalFn x ps + b.evalFn x ps
  guessFn := fun data x =>
    dictUpdate (dictUpdate a.makeParamsFn b.makeParamsFn)
      (dictUpdate (dictUpdate [] (a.guessFn data x)) (b.guessFn data x))
  makeParamsFn := dictUpdate a.makeParamsFn b.makeParamsFn

/-! ## Association-list bookkeeping for the guess merge -/

theorem dictGet_eq_none_of_not_mem_keys [DecidableEq κ] {k : κ} {d : List (κ × β)}
    (h : k ∉ d.map Prod.fst) : dictGet k d = none := by
  induction d with
  | nil => rfl
  | cons e es ih =>
    simp only [List.map_cons, List.mem_cons] at h
    push_neg at h
    have hne : ¬ e.1 = k := fun he => h.1 he.symm
    simp only [dictGet, if_neg hne]
    exact ih h.2

theorem keys_dictInsert_mem [DecidableEq κ] (d : List (κ × β)) (k : κ) (v : β) :
    ∀ x ∈ (dictInsert d k v).map Prod.fst, x ∈ d.map Prod.fst ∨ x = k := by
  intro x hx
  simp only [List.mem_map] at hx
  obtain ⟨e, he, rfl⟩ := hx
  rcases mem_dictInsert d k v e he with h | h
  · exact Or.inl (List.mem_map_of_mem Prod.fst h)
  · subst h
    exact Or.inr rfl

theorem nodupKeys_dictInsert [DecidableEq κ] (d : List (κ × β)) (k : κ) (v : β)
    (h : (d.map Prod.fst).Nodup) : ((dictInsert d k v).map Prod.fst).Nodup := by
  induction d with
  | nil => simp [dictInsert]
  | cons e es ih =>
    simp only [List.map_cons, List.nodup_cons] at h
    simp only [dictInsert]
    by_cases he : e.1 = k
    · rw [if_pos he]
      simp only [List.map_cons, List.nodup_cons]
      exact ⟨he ▸ h.1, h.2⟩
    · rw [if_neg he]
      simp only [List.map_cons, List.nodup_cons]
      refine ⟨?_, ih h.2⟩
      intro hmem
      rcases keys_dictInsert_mem es k v e.1 hmem with h1 | h1
      · exact h.1 h1
      · exact he h1

theorem nodupKeys_dictUpdate [DecidableEq κ] (u d : List (κ × β))
    (h : (d.map Prod.fst).Nodup) : ((dictUpdate d u).map Prod.fst).Nodup := by
  induction u generalizing d with
  | nil => exact h
  | cons e u ih =>
    simp only [dictUpdate, List.foldl_cons] at *
    exact ih _ (nodupKeys_dictInsert d e.1 e.2 h)

theorem dictGet_reverse_of_nodupKeys [DecidableEq κ] {d : List (κ × β)}
    (h : (d.map Prod.fst).Nodup) (k : κ) : dictGet k d.reverse = dictGet k d := by
  induction d with
  | nil => rfl
  | cons e es ih =>
    simp only [List.map_cons, List.nodup_cons] at h
    rw [List.reverse_cons, dictGet_append]
    by_cases hk : e.1 = k
    · subst hk
      have : dictGet e.1 es.reverse = none := by
        apply dictGet_eq_none_of_not_mem_keys
        rw [List.map_reverse, List.mem_reverse]
        exact h.1
      simp [this, dictGet, Option.orElse]
    · have h2 := ih h.2
      simp only [dictGet, if_neg hk]
      rw [h2]
      cases hget : dictGet k es <;> simp [dictGet, hk, Option.orElse]

/-! ## Trace and identity-arrangement lemmas -/

theorem traceOf_range_eq_zero (f : ℕ → ℕ → ℚ) (k : ℕ) (hdiag : ∀ i, f i i = 0) :
    traceOf f (List.range k) = 0 := by
  apply List.sum_eq_zero
  intro x hx
  simp only [List.mem_map] at hx
  obtain ⟨ip, hip, rfl⟩ := hx
  have h1 : (List.range k)[ip.1]? = some ip.2 := List.mem_enum_iff_getElem?.mp hip
  have h2 : ip.1 < k := by
    by_contra hc
    rw [List.getElem?_eq_none (by simpa using Nat.le_of_not_lt hc)] at h1
    cases h1
  rw [List.getElem?_range h2] at h1
  injection h1 with h1
  rw [← h1]
  exact hdiag ip.1

theorem traceOf_nonneg (f : ℕ → ℕ → ℚ) (p : List ℕ) (h : ∀ i j, 0 ≤ f i j) :
    0 ≤ traceOf f p := by
  apply List.sum_nonneg
  intro x hx
  simp only [List.mem_map] at hx
  obtain ⟨ip, _, rfl⟩ := hx
  exact h ip.1 ip.2

/-- With a zero diagonal and nonnegative entries, the strict-improvement
search keeps the identity arrangement it was initialized with: the identity
is enumerated first and achieves the global minimum `0`. -/
theorem bestArrangement_identity (f : ℕ → ℕ → ℚ) (k : ℕ)
    (hdiag : ∀ i, f i i = 0) (hnn : ∀ i j, 0 ≤ f i j) :
    bestArrangement f k = List.range k := by
  obtain ⟨p, ps, h⟩ := List.exists_cons_of_ne_nil (permsLex_ne_nil k)
  have hhead : p = List.range k := by
    have hh := permsLex_head k
    rw [h] at hh
    simpa using hh
  subst hhead
  rw [bestArrangement_eq_firstMinBy f k _ ps h]
  apply firstMinBy_eq_self
  intro x _
  rw [traceOf_range_eq_zero f k hdiag]
  exact not_lt.mpr (traceOf_nonneg f x hnn)

theorem selectRef_mem {pool : List PoolEntry} {fc : Coord} {c : PoolEntry}
    (h : selectRef pool fc = some c) : c ∈ pool := by
  cases pool with
  | nil => cases h
  | cons e es =>
    rw [selectRef_cons] at h
    injection h with h
    rw [← h]
    exact firstMinBy_mem _ e es

theorem selectRef_isSome {pool : List PoolEntry} {fc : Coord} :
    (selectRef pool fc).isSome = !pool.isEmpty := by
  cases pool with
  | nil => rfl
  | cons e es => rw [selectRef_cons]; rfl

/-- Unfolding of `unpackStep` once the reference search has succeeded. -/
theorem unpackStep_found {pool : List PoolEntry} {fc : Coord} {c : PoolEntry}
    (d : Vec3 → Vec3 → ℚ) (w : Vec3) (tmpl : List String) (fr : ModelResult)
    (h : selectRef pool fc = some c) :
    unpackStep d w tmpl pool fc fr =
      (dictInsert pool fc
        (applyIdx c.2.1 "" (bestArrangement (slcDistMat d w tmpl fr c.2) tmpl.length), fr),
       applyIdx c.2.1 "" (bestArrangement (slcDistMat d w tmpl fr c.2) tmpl.length)) := by
  simp only [unpackStep, h, Option.isSome_some, if_true, Option.getD_some]

/-- Unfolding of `unpackStep` on the first slice (empty pool). -/
theorem unpackStep_empty (d : Vec3 → Vec3 → ℚ) (w : Vec3) (tmpl : List String)
    (fc : Coord) (fr : ModelResult) :
    unpackStep d w tmpl [] fc fr =
      ([(fc,
         (applyIdx fr.components ""
           (bestArrangement (slcDistMat d w tmpl fr (fr.components, fr)) tmpl.length), fr))],
       applyIdx fr.components ""
         (bestArrangement (slcDistMat d w tmpl fr (fr.components, fr)) tmpl.length)) := by
  simp only [unpackStep, selectRef_nil, Option.isSome_none, Bool.false_eq_true, if_false,
    Option.getD_none, dictInsert]
  rfl

/-- One resolver step records a permutation of the template prefixes and
preserves that property for every pool entry. -/
theorem unpackStep_invariant (d : Vec3 → Vec3 → ℚ) (w : Vec3) (tmpl : List String)
    (pool : List PoolEntry) (fc : Coord) (fr : ModelResult)
    (hpool : ∀ e ∈ pool, e.2.1.Perm tmpl) (hcomp : fr.components = tmpl) :
    (unpackStep d w tmpl pool fc fr).2.Perm tmpl
    ∧ ∀ e ∈ (unpackStep d w tmpl pool fc fr).1, e.2.1.Perm tmpl := by
  subst hcomp
  cases pool with
  | nil =>
    rw [unpackStep_empty]
    have hord : (applyIdx fr.components ""
        (bestArrangement (slcDistMat d w fr.components fr (fr.components, fr))
          fr.components.length)).Perm fr.components :=
      applyIdx_perm fr.components "" _ (bestArrangement_perm _ _)
    refine ⟨hord, ?_⟩
    intro e he
    simp only [List.mem_singleton] at he
    rw [he]
    exact hord
  | cons p ps =>
    have hsel := selectRef_cons fc p ps
    have hcmem : firstMinBy (fun x => dotProd x.1 fc) p ps ∈ p :: ps :=
      firstMinBy_mem _ p ps
    have hcperm : (firstMinBy (fun x => dotProd x.1 fc) p ps).2.1.Perm fr.components :=
      hpool _ hcmem
    rw [unpackStep_found d w fr.components fr hsel]
    have hord : (applyIdx (firstMinBy (fun x => dotProd x.1 fc) p ps).2.1 ""
        (bestArrangement
          (slcDistMat d w fr.components fr (firstMinBy (fun x => dotProd x.1 fc) p ps).2)
          fr.components.length)).Perm fr.components := by
      have hb := bestArrangement_perm
        (slcDistMat d w fr.components fr (firstMinBy (fun x => dotProd x.1 fc) p ps).2)
        fr.components.length
      have hb2 : (bestArrangement
          (slcDistMat d w fr.components fr (firstMinBy (fun x => dotProd x.1 fc) p ps).2)
          fr.components.length).Perm
          (List.range (firstMinBy (fun x => dotProd x.1 fc) p ps).2.1.length) := by
        rw [hcperm.length_eq]
        exact hb
      exact (applyIdx_perm _ "" _ hb2).trans hcperm
    refine ⟨hord, ?_⟩
    intro e he
    rcases mem_dictInsert _ _ _ e he with h1 | h1
    · exact hpool e h1
    · rw [h1]
      exact hord

/-- The sweep-wide invariant: starting from a pool of valid entries, every
assignment the resolver records is a permutation of the template
prefixes. -/
theorem unpackLoop_invariant (d : Vec3 → Vec3 → ℚ) (w : Vec3) (tmpl : List String)
    (slices : List (Coord × ModelResult)) (pool : List PoolEntry)
    (hpool : ∀ e ∈ pool, e.2.1.Perm tmpl)
    (hcomp : ∀ s ∈ slices, (Prod.snd s).components = tmpl) :
    (∀ e ∈ (unpackLoop d w tmpl slices pool).1, e.2.1.Perm tmpl)
    ∧ ∀ pr ∈ (unpackLoop d w tmpl slices pool).2, pr.2.Perm tmpl := by
  induction slices generalizing pool with
  | nil => exact ⟨hpool, by simp [unpackLoop]⟩
  | cons s rest ih =>
    obtain ⟨fc, fr⟩ := s
    have hstep := unpackStep_invariant d w tmpl pool fc fr hpool (hcomp (fc, fr) (by simp))
    have hrec := ih (unpackStep d w tmpl pool fc fr).1 hstep.2
      (fun s2 hs2 => hcomp s2 (by simp [hs2]))
    constructor
    · intro e he
      simp only [unpackLoop] at he
      exact hrec.1 e he
    · intro pr hpr
      simp only [unpackLoop] at hpr
      rcases List.mem_cons.mp hpr with h1 | h1
      · rw [h1]
        exact hstep.1
      · exact hrec.2 pr h1

/-! ## Claims -/

/-- C1: the claim states that `fit_bands` seeds each marginal's fit with the
parameters of the cache entry minimizing the squared Euclidean distance to
the current frozen coordinate (first minimizer winning), falling back to the
initial fits on an empty cache.  The code does not do this: `dist` is never
updated in the loop (`# fix me` in the source), so every cache entry passes
`current_distance < dist` and the **last** entry in insertion order wins.
At the failing input below the cache holds `([0], params 1)` then
`([10], params 2)` and the frozen coordinate is `[0]`: the entry at
`[0]` has strictly smaller squared distance (`0 < 100`), yet the code
returns the parameters `2` of the entry at `[10]`. -/
theorem fit_bands_prior_ignores_distance :
    closestModelParams (0 : ℕ) [([0], 1), ([10], 2)] [0] true = 2
    ∧ sqDist [0] [0] < sqDist [10] [0] := by
  constructor
  · rw [closestModelParams_eq_last]
    rfl
  · show sqDist [0] [0] < sqDist [10] [0]
    norm_num [sqDist]

/-- C2: the arrangement chosen by `unpack_bands_from_fit` for a slice is a
permutation of the component indices whose matched-distance sum
(`trace`) is minimal over all `k!` permutations, and among the permutations
achieving the minimum the one the permutation generator emits first is
selected (strict `<` never replaces on ties). -/
theorem unpack_arrangement_minimizes_trace (f : ℕ → ℕ → ℚ) (k : ℕ) :
    (bestArrangement f k).Perm (List.range k)
    ∧ (∀ p : List ℕ, p.Perm (List.range k) →
        traceOf f (bestArrangement f k) ≤ traceOf f p)
    ∧ ∃ l1 l2, permsLex k = l1 ++ bestArrangement f k :: l2
        ∧ ∀ q ∈ l1, traceOf f (bestArrangement f k) < traceOf f q := by
  obtain ⟨p0, ps, h⟩ := List.exists_cons_of_ne_nil (permsLex_ne_nil k)
  have heq := bestArrangement_eq_firstMinBy f k p0 ps h
  refine ⟨bestArrangement_perm f k, ?_, ?_⟩
  · intro p hp
    have hmem : p ∈ permsLex k := mem_permsLex.mpr hp
    rw [h] at hmem
    rw [heq]
    exact firstMinBy_le (traceOf f) p0 ps p hmem
  · obtain ⟨l1, l2, hdec, hlt⟩ := firstMinBy_first (traceOf f) p0 ps
    rw [heq, h]
    exact ⟨l1, l2, hdec, hlt⟩

/-- Witness for C2 at the concrete matrix `f i j = i + 2 j` and `k = 2`:
the chosen arrangement is a permutation of `range 2`, it beats the explicit
permutation `[1, 0]`, and it sits first among the minimizers in the
enumeration. -/
theorem unpack_arrangement_minimizes_trace_witness :
    (bestArrangement (fun i j => (i : ℚ) + 2 * j) 2).Perm (List.range 2)
    ∧ traceOf (fun i j => (i : ℚ) + 2 * j)
        (bestArrangement (fun i j => (i : ℚ) + 2 * j) 2) ≤
        traceOf (fun i j => (i : ℚ) + 2 * j) [1, 0]
    ∧ ∃ l1 l2, permsLex 2 = l1 ++ bestArrangement (fun i j => (i : ℚ) + 2 * j) 2 :: l2
        ∧ ∀ q ∈ l1, traceOf (fun i j => (i : ℚ) + 2 * j)
            (bestArrangement (fun i j => (i : ℚ) + 2 * j) 2) <
            traceOf (fun i j => (i : ℚ) + 2 * j) q :=
  ⟨(unpack_arrangement_minimizes_trace _ 2).1,
   (unpack_arrangement_minimizes_trace _ 2).2.1 [1, 0] (by decide),
   (unpack_arrangement_minimizes_trace _ 2).2.2⟩

/-- C3: for every slice after the first, the reference slice is the
already-resolved pool entry minimizing the raw dot product
`np.dot(coord, frozen_coord)` (not a Euclidean distance), the first
minimizer in iteration order winning; the distance matrix and recorded
arrangement are built against exactly that entry, and after resolution the
current slice is inserted into the reference pool. -/
theorem unpack_reference_by_dot_product (d : Vec3 → Vec3 → ℚ) (w : Vec3)
    (tmpl : List String) (fr : ModelResult) (fc : Coord)
    (pool : List PoolEntry) (hne : pool ≠ []) :
    ∃ c, selectRef pool fc = some c
      ∧ c ∈ pool
      ∧ (∀ e ∈ pool, dotProd c.1 fc ≤ dotProd e.1 fc)
      ∧ (∃ l1 l2, pool = l1 ++ c :: l2 ∧ ∀ e ∈ l1, dotProd c.1 fc < dotProd e.1 fc)
      ∧ unpackStep d w tmpl pool fc fr =
          (dictInsert pool fc
            (applyIdx c.2.1 ""
              (bestArrangement (slcDistMat d w tmpl fr c.2) tmpl.length), fr),
           applyIdx c.2.1 ""
            (bestArrangement (slcDistMat d w tmpl fr c.2) tmpl.length)) := by
  obtain ⟨p, ps, rfl⟩ := List.exists_cons_of_ne_nil hne
  refine ⟨firstMinBy (fun x => dotProd x.1 fc) p ps, selectRef_cons fc p ps,
    firstMinBy_mem _ p ps, ?_, ?_, ?_⟩
  · intro e he
    exact firstMinBy_le (fun x => dotProd x.1 fc) p ps e he
  · exact firstMinBy_first (fun x => dotProd x.1 fc) p ps
  · exact unpackStep_found d w tmpl fr (selectRef_cons fc p ps)

/-! ### Concrete data for witnesses -/

/-- Squared Euclidean distance on feature vectors: a concrete stand-in in
witnesses for the abstract component metric (nonnegative, zero diagonal). -/
def sqDist3 (u v : Vec3) : ℚ :=
  (u.1 - v.1) ^ 2 + (u.2.1 - v.2.1) ^ 2 + (u.2.2 - v.2.2) ^ 2

def frW : ModelResult := ⟨["a_", "b_"], fun _ => ⟨1, 0⟩⟩

def frW2 : ModelResult := ⟨["a_", "b_"], fun n => if n = "a_center" then ⟨2, 0⟩ else ⟨1, 0⟩⟩

def poolW : List PoolEntry := [([0], (["a_", "b_"], frW)), ([1], (["b_", "a_"], frW2))]

def slicesW : List (Coord × ModelResult) := [([0], frW), ([1], frW2)]

/-- Witness for C3: on a two-entry pool the search succeeds and the chosen
reference satisfies the dot-product minimality and pool-growth clauses. -/
theorem unpack_reference_by_dot_product_witness :
    poolW ≠ []
    ∧ ∃ c, selectRef poolW [2] = some c
      ∧ c ∈ poolW
      ∧ (∀ e ∈ poolW, dotProd c.1 [2] ≤ dotProd e.1 [2])
      ∧ (∃ l1 l2, poolW = l1 ++ c :: l2 ∧ ∀ e ∈ l1, dotProd c.1 [2] < dotProd e.1 [2])
      ∧ unpackStep sqDist3 (2, 0, 10) ["a_", "b_"] poolW [2] frW =
          (dictInsert poolW [2]
            (applyIdx c.2.1 ""
              (bestArrangement (slcDistMat sqDist3 (2, 0, 10) ["a_", "b_"] frW c.2)
                (["a_", "b_"] : List String).length), frW),
           applyIdx c.2.1 ""
            (bestArrangement (slcDistMat sqDist3 (2, 0, 10) ["a_", "b_"] frW c.2)
              (["a_", "b_"] : List String).length)) := by
  have hne : poolW ≠ [] := by
    unfold poolW
    exact List.cons_ne_nil _ _
  exact ⟨hne,
    unpack_reference_by_dot_product sqDist3 (2, 0, 10) ["a_", "b_"] frW [2] poolW hne⟩

/-- C4: every assignment recorded by the resolver sweep is a permutation of
the template component prefixes — its length equals the number of bands
being tracked, no prefix is invented or dropped, and (for distinct
prefixes, as lmfit guarantees) each prefix occurs at most once. -/
theorem unpack_assignments_are_permutations (d : Vec3 → Vec3 → ℚ) (w : Vec3)
    (tmpl : List String) (slices : List (Coord × ModelResult))
    (hcomp : ∀ s ∈ slices, (Prod.snd s).components = tmpl) :
    ∀ pr ∈ (unpackLoop d w tmpl slices []).2,
      pr.2.Perm tmpl ∧ pr.2.length = tmpl.length ∧ (tmpl.Nodup → pr.2.Nodup) := by
  have hinv := unpackLoop_invariant d w tmpl slices []
    (by intro e he; cases he) hcomp
  intro pr hpr
  have hperm := hinv.2 pr hpr
  exact ⟨hperm, hperm.length_eq, fun hnd => hperm.nodup_iff.mpr hnd⟩

/-- Witness for C4 on a concrete two-slice sweep. -/
theorem unpack_assignments_are_permutations_witness :
    (∀ s ∈ slicesW, (Prod.snd s).components = ["a_", "b_"])
    ∧ ∀ pr ∈ (unpackLoop sqDist3 (2, 0, 10) ["a_", "b_"] slicesW []).2,
        pr.2.Perm ["a_", "b_"] ∧ pr.2.length = (["a_", "b_"] : List String).length
        ∧ ((["a_", "b_"] : List String).Nodup → pr.2.Nodup) := by
  have hc : ∀ s ∈ slicesW, (Prod.snd s).components = ["a_", "b_"] := by
    intro s hs
    rcases List.mem_cons.mp hs with h | h
    · rw [h]; rfl
    · rcases List.mem_cons.mp h with h2 | h2
      · rw [h2]; rfl
      · exact absurd h2 (List.not_mem_nil s)
  exact ⟨hc,
    unpack_assignments_are_permutations sqDist3 (2, 0, 10) ["a_", "b_"] slicesW hc⟩

/-- C5: the very first slice (empty reference pool) is assigned the
identity permutation — its recorded ordering is its own component prefixes
in fit-return order — and the pool afterwards consists of exactly this
slice, so it is the reference every later slice initially finds. -/
theorem unpack_first_slice_is_identity (d : Vec3 → Vec3 → ℚ) (w : Vec3)
    (fc : Coord) (fr : ModelResult)
    (hd0 : ∀ v, d v v = 0) (hnn : ∀ u v, 0 ≤ d u v) :
    unpackStep d w fr.components [] fc fr = ([(fc, (fr.components, fr))], fr.components)
    ∧ ∀ fc2, selectRef [(fc, (fr.components, fr))] fc2 =
        some (fc, (fr.components, fr)) := by
  constructor
  · rw [unpackStep_empty]
    have hdiag : ∀ i,
        slcDistMat d w fr.components fr (fr.components, fr) i i = 0 := fun i => hd0 _
    have hident := bestArrangement_identity _ fr.components.length hdiag
      (fun i j => hnn _ _)
    rw [hident]
    rw [show applyIdx fr.components "" (List.range fr.components.length) = fr.components
      from map_getD_range _ _]
  · intro fc2
    rw [selectRef_cons]
    rfl

/-- Witness for C5 at a concrete first slice. -/
theorem unpack_first_slice_is_identity_witness :
    (∀ v : Vec3, sqDist3 v v = 0) ∧ (∀ u v : Vec3, 0 ≤ sqDist3 u v)
    ∧ (unpackStep sqDist3 (2, 0, 10) frW.components [] [0] frW =
        ([([0], (frW.components, frW))], frW.components)
      ∧ ∀ fc2, selectRef [([0], (frW.components, frW))] fc2 =
          some ([0], (frW.components, frW))) := by
  have h0 : ∀ v : Vec3, sqDist3 v v = 0 := by intro v; simp [sqDist3]
  have h1 : ∀ u v : Vec3, 0 ≤ sqDist3 u v := by
    intro u v
    simp only [sqDist3]
    positivity
  exact ⟨h0, h1, unpack_first_slice_is_identity sqDist3 (2, 0, 10) [0] frW h0 h1⟩

/-- C6: a slice whose patterning coordinate lies inside a consecutive
control-point interval gets the linearly interpolated expected center from
that bracketing pair; a slice outside every consecutive interval yields no
fragment, and a band with no fragments resolves to no partial bands (it is
omitted at that slice). -/
theorem patterned_center_interpolation (points : List (ℚ × ℚ)) (coord : ℚ) (ci : ℕ) :
    (∀ i, i + 1 < points.length →
      isBetween coord (getCoord (points.getD i (0, 0)) ci)
          (getCoord (points.getD (i + 1) (0, 0)) ci) = true →
      getCoord (points.getD i (0, 0)) ci ≠ getCoord (points.getD (i + 1) (0, 0)) ci →
      (coord, lerpAt coord (getCoord (points.getD i (0, 0)) ci)
          (getCoord (points.getD (i + 1) (0, 0)) ci)
          (getCoord (points.getD i (0, 0)) (1 - ci))
          (getCoord (points.getD (i + 1) (0, 0)) (1 - ci)))
        ∈ interpolateIntersectingFragments coord ci points)
    ∧ ((∀ i, i + 1 < points.length →
          isBetween coord (getCoord (points.getD i (0, 0)) ci)
            (getCoord (points.getD (i + 1) (0, 0)) ci) = false) →
        interpolateIntersectingFragments coord ci points = [])
    ∧ ∀ (arrDims : List String) (stray : Option ℚ) (cd : List (String × ℚ))
        (marg : Option (List (ℚ × ℚ))) (bd : BandDesc) (coordName : String),
        bd.dims.find? (fun dn => (dictGet dn cd).isSome) = some coordName →
        interpolateIntersectingFragments ((dictGet coordName cd).getD 0)
          (arrDims.indexOf coordName) bd.points = [] →
        resolveBandsFromDescription arrDims stray cd marg bd = [] := by
  refine ⟨?_, ?_, ?_⟩
  · intro i hlen hb hne
    show _ ∈ (points.zip points.tail).filterMap _
    exact List.mem_filterMap.mpr
      ⟨(points.getD i (0, 0), points.getD (i + 1) (0, 0)),
        zipConsec_getD_mem points i hlen,
        fragment_branches_eq_lerp coord ci _ _ hb hne⟩
  · intro hfalse
    show (points.zip points.tail).filterMap _ = []
    apply List.filterMap_eq_nil_iff.mpr
    intro pq hpq
    obtain ⟨i, hi, h1, h2⟩ := mem_zipConsec points pq hpq
    have hb := hfalse i hi
    rw [h1, h2] at hb
    simp [hb]
  · intro arrDims stray cd marg bd coordName hfind hempty
    unfold resolveBandsFromDescription
    rw [hfind]
    simp [hempty]

/-- Witness for C6 at the spec's example: control points
`[(0, 1.0), (1, 2.0)]` queried at patterning coordinate `0.5` yield the
interpolated center `1.5`, and queried at `2` yield no fragment. -/
theorem patterned_center_interpolation_witness :
    ((1 : ℚ) / 2,
      lerpAt ((1 : ℚ) / 2)
        (getCoord (([(0, 1), (1, 2)] : List (ℚ × ℚ)).getD 0 (0, 0)) 0)
        (getCoord (([(0, 1), (1, 2)] : List (ℚ × ℚ)).getD 1 (0, 0)) 0)
        (getCoord (([(0, 1), (1, 2)] : List (ℚ × ℚ)).getD 0 (0, 0)) (1 - 0))
        (getCoord (([(0, 1), (1, 2)] : List (ℚ × ℚ)).getD 1 (0, 0)) (1 - 0)))
      ∈ interpolateIntersectingFragments ((1 : ℚ) / 2) 0 [(0, 1), (1, 2)]
    ∧ lerpAt ((1 : ℚ) / 2) 0 1 1 2 = 3 / 2
    ∧ interpolateIntersectingFragments (2 : ℚ) 0 [(0, 1), (1, 2)] = [] := by
  refine ⟨(patterned_center_interpolation [(0, 1), (1, 2)] ((1 : ℚ) / 2) 0).1 0
      (by norm_num) (by norm_num [isBetween, getCoord]) (by norm_num [getCoord]),
    by norm_num [lerpAt],
    (patterned_center_interpolation [(0, 1), (1, 2)] (2 : ℚ) 0).2.1 ?_⟩
  intro i hi
  have hi0 : i = 0 := by
    simp at hi
    omega
  subst hi0
  norm_num [isBetween, getCoord]

/-- C7: a slice where no bands are available gets the `None` sentinel in
the result grid rather than raising, is skipped during residual
aggregation (its residual stays zero), and the sweep's result grid always
has one cell per free-direction coordinate combination regardless of how
many cells hold the sentinel. -/
theorem patterned_no_band_sentinel {FitRes : Type}
    (fitOp : List FragBand → List (ℚ × ℚ) → FitRes) (resid : FitRes → ℚ)
    (arrDims : List String) (stray : Option ℚ) (bandSet : List BandDesc)
    (background : Bool) (freeDirs : List String) (axes : List (List ℚ))
    (marginalOf : List (String × ℚ) → List (ℚ × ℚ)) (c0 : List (String × ℚ))
    (hempty : ∀ bd ∈ bandSet,
      resolveBandsFromDescription arrDims stray c0 (some (marginalOf c0)) bd = []) :
    (fitPatternedBands fitOp arrDims stray bandSet background freeDirs axes
        marginalOf).length = (axes.map List.length).prod
    ∧ fitPatternedSlice fitOp arrDims stray bandSet background c0 (marginalOf c0) = none
    ∧ ∀ ce ∈ residualGrid resid
        (fitPatternedBands fitOp arrDims stray bandSet background freeDirs axes marginalOf),
        ce.1 = c0 → ce.2 = 0 := by
  have hslice : fitPatternedSlice fitOp arrDims stray bandSet background c0
      (marginalOf c0) = none := by
    have hres : (bandSet.map
        (resolveBandsFromDescription arrDims stray c0 (some (marginalOf c0)))).filter
        (fun p => !p.isEmpty) = [] := by
      apply List.filter_eq_nil_iff.mpr
      intro a ha
      simp only [List.mem_map] at ha
      obtain ⟨bd, hbd, rfl⟩ := ha
      rw [hempty bd hbd]
      simp
    simp [fitPatternedSlice, hres]
  refine ⟨?_, hslice, ?_⟩
  · simp [fitPatternedBands, cartProd_length]
  · intro ce hce
    simp only [residualGrid, List.mem_map] at hce
    obtain ⟨cell, hcell, rfl⟩ := hce
    simp only [fitPatternedBands, List.mem_map] at hcell
    obtain ⟨vs, _, rfl⟩ := hcell
    intro h1
    simp only at h1 ⊢
    rw [h1, hslice]

/-- Witness for C7: a single-band band set whose control points do not
bracket the only slice of a one-axis sweep. -/
theorem patterned_no_band_sentinel_witness :
    (∀ bd ∈ [(⟨"band", ["delay"], [(0, 1), (1, 2)], bpEmpty⟩ : BandDesc)],
      resolveBandsFromDescription ["delay", "eV"] none [("delay", 5)]
        (some []) bd = [])
    ∧ ((fitPatternedBands (fun _ _ => (0 : ℚ)) ["delay", "eV"] none
          [⟨"band", ["delay"], [(0, 1), (1, 2)], bpEmpty⟩] true ["delay"] [[5]]
          (fun _ => [])).length = ([[(5 : ℚ)]].map List.length).prod
      ∧ fitPatternedSlice (fun _ _ => (0 : ℚ)) ["delay", "eV"] none
          [⟨"band", ["delay"], [(0, 1), (1, 2)], bpEmpty⟩] true [("delay", 5)] [] = none
      ∧ ∀ ce ∈ residualGrid id
          (fitPatternedBands (fun _ _ => (0 : ℚ)) ["delay", "eV"] none
            [⟨"band", ["delay"], [(0, 1), (1, 2)], bpEmpty⟩] true ["delay"] [[5]]
            (fun _ => [])),
          ce.1 = [("delay", 5)] → ce.2 = 0) := by
  have hemp : ∀ bd ∈ [(⟨"band", ["delay"], [(0, 1), (1, 2)], bpEmpty⟩ : BandDesc)],
      resolveBandsFromDescription ["delay", "eV"] none [("delay", 5)]
        (some []) bd = [] := by
    intro bd hbd
    rcases List.mem_cons.mp hbd with h | h
    · rw [h]
      rfl
    · exact absurd h (List.not_mem_nil bd)
  exact ⟨hemp,
    patterned_no_band_sentinel (fun _ _ => (0 : ℚ)) id ["delay", "eV"] none
      [⟨"band", ["delay"], [(0, 1), (1, 2)], bpEmpty⟩] true ["delay"] [[5]]
      (fun _ => []) [("delay", 5)] hemp⟩

/-- C8: `_iterate_marginals` yields exactly one `(slice, coordinate)` pair
per combination of free-axis coordinate values (the product of the free
axis lengths); being a pure function of its inputs, iterating it twice
yields the identical sequence; with no free directions it yields exactly
one element, the full fit-axis slice `arr.sel({})`. -/
theorem iterate_marginals_spec (arr : Spectrum α) (dirs : List String) :
    (iterateMarginals arr dirs).length = ((dirs.map arr.coords).map List.length).prod
    ∧ iterateMarginals arr dirs = iterateMarginals arr dirs
    ∧ iterateMarginals arr [] = [(arr.sel [], [])] := by
  refine ⟨?_, rfl, rfl⟩
  simp [iterateMarginals, cartProd_length]

/-- C9: for two peak models composed with `+`, the composite's evaluation
equals the sum of the components' evaluations on their prefix-qualified
parameter subsets, and the composite's `guess` merges each component's
guessed parameters into the union namespace over the `make_params`
defaults, later components overriding earlier ones on collisions. -/
theorem composite_add_eval_and_guess (a b : PModel)
    (ha : ReadsOwnParams a) (hb : ReadsOwnParams b)
    (haN : ∀ data x, ((a.guessFn data x).map Prod.fst).Nodup)
    (hbN : ∀ data x, ((b.guessFn data x).map Prod.fst).Nodup) :
    (∀ x ps, (addComposite a b).evalFn x ps =
        a.evalFn x (paramSubset ps a.pfx) + b.evalFn x (paramSubset ps b.pfx))
    ∧ ∀ data x k, dictGet k ((addComposite a b).guessFn data x) =
        ((dictGet k (b.guessFn data x)).orElse fun _ =>
          (dictGet k (a.guessFn data x)).orElse fun _ =>
            dictGet k (dictUpdate a.makeParamsFn b.makeParamsFn)) := by
  constructor
  · intro x ps
    show a.evalFn x ps + b.evalFn x ps = _
    rw [ha x ps, hb x ps]
  · intro data x k
    show dictGet k
      (dictUpdate (dictUpdate a.makeParamsFn b.makeParamsFn)
        (dictUpdate (dictUpdate [] (a.guessFn data x)) (b.guessFn data x))) = _
    rw [dictGet_dictUpdate]
    have hg0N : (((dictUpdate [] (a.guessFn data x)) :
        List (String × ℚ)).map Prod.fst).Nodup :=
      nodupKeys_dictUpdate _ [] (by simp)
    have hgN : (((dictUpdate (dictUpdate [] (a.guessFn data x)) (b.guessFn data x)) :
        List (String × ℚ)).map Prod.fst).Nodup :=
      nodupKeys_dictUpdate _ _ hg0N
    rw [dictGet_reverse_of_nodupKeys hgN]
    rw [dictGet_dictUpdate]
    rw [dictGet_reverse_of_nodupKeys (hbN data x)]
    rw [dictGet_dictUpdate]
    rw [dictGet_reverse_of_nodupKeys (haN data x)]
    cases hB : dictGet k (b.guessFn data x) with
    | some v => simp [Option.orElse]
    | none =>
      cases hA : dictGet k (a.guessFn data x) with
      | some v => simp [Option.orElse, dictGet]
      | none => simp [Option.orElse, dictGet]

/-- Witness for C9 with two concrete one-parameter models whose
evaluations ignore the parameter set. -/
theorem composite_add_eval_and_guess_witness :
    (ReadsOwnParams ⟨"a_", fun x _ => x, fun _ _ => [("a_c", 1)], [("a_c", 0)]⟩)
    ∧ (ReadsOwnParams ⟨"b_", fun _ _ => 2, fun _ _ => [("b_c", 3)], [("b_c", 0)]⟩)
    ∧ (∀ data x : List ℚ,
        ((PModel.guessFn ⟨"a_", fun x _ => x, fun _ _ => [("a_c", 1)], [("a_c", 0)]⟩
          data x).map Prod.fst).Nodup)
    ∧ (∀ data x : List ℚ,
        ((PModel.guessFn ⟨"b_", fun _ _ => 2, fun _ _ => [("b_c", 3)], [("b_c", 0)]⟩
          data x).map Prod.fst).Nodup)
    ∧ ((∀ x ps, (addComposite ⟨"a_", fun x _ => x, fun _ _ => [("a_c", 1)], [("a_c", 0)]⟩
          ⟨"b_", fun _ _ => 2, fun _ _ => [("b_c", 3)], [("b_c", 0)]⟩).evalFn x ps =
          PModel.evalFn ⟨"a_", fun x _ => x, fun _ _ => [("a_c", 1)], [("a_c", 0)]⟩ x
            (paramSubset ps "a_") +
          PModel.evalFn ⟨"b_", fun _ _ => 2, fun _ _ => [("b_c", 3)], [("b_c", 0)]⟩ x
            (paramSubset ps "b_"))
      ∧ ∀ data x k, dictGet k ((addComposite
            ⟨"a_", fun x _ => x, fun _ _ => [("a_c", 1)], [("a_c", 0)]⟩
            ⟨"b_", fun _ _ => 2, fun _ _ => [("b_c", 3)], [("b_c", 0)]⟩).guessFn data x) =
          ((dictGet k [(("b_c" : String), (3 : ℚ))]).orElse fun _ =>
            (dictGet k [(("a_c" : String), (1 : ℚ))]).orElse fun _ =>
              dictGet k (dictUpdate [(("a_c" : String), (0 : ℚ))]
                [(("b_c" : String), (0 : ℚ))]))) := by
  have ha : ReadsOwnParams ⟨"a_", fun x _ => x, fun _ _ => [("a_c", 1)], [("a_c", 0)]⟩ := by
    intro x ps
    rfl
  have hb : ReadsOwnParams ⟨"b_", fun _ _ => 2, fun _ _ => [("b_c", 3)], [("b_c", 0)]⟩ := by
    intro x ps
    rfl
  have haN : ∀ data x : List ℚ,
      ((PModel.guessFn ⟨"a_", fun x _ => x, fun _ _ => [("a_c", 1)], [("a_c", 0)]⟩
        data x).map Prod.fst).Nodup := by
    intro data x
    simp
  have hbN : ∀ data x : List ℚ,
      ((PModel.guessFn ⟨"b_", fun _ _ => 2, fun _ _ => [("b_c", 3)], [("b_c", 0)]⟩
        data x).map Prod.fst).Nodup := by
    intro data x
    simp
  exact ⟨ha, hb, haN, hbN, composite_add_eval_and_guess _ _ ha hb haN hbN⟩

/-- C10: `_build_params` updates and returns the very dict passed in — the
same reference, with the center entry (bounded by `center ± stray`), a
sigma value equal to the stray, and an amplitude value equal to the
80th-minus-20th percentile spread within `1.2 × stray` of the center — so
the per-band dict in `band_set` is shared across the whole sweep: a later
slice's call on the same reference still sees the sigma installed by an
earlier slice. -/
theorem build_params_updates_in_place (store : ParamsStore) (r : ParamsRef)
    (c c2 s : ℚ) (m : List (ℚ × ℚ)) (h : r < store.length) :
    (buildParams store r c (some s) (some m)).2 = r
    ∧ (buildParams store r c (some s) (some m)).1 =
        store.set r (buildParamsVal (store.getD r bpEmpty) c (some s) (some m))
    ∧ ((buildParams store r c (some s) (some m)).1.getD r bpEmpty).center =
        some ⟨some c, some (c - s), some (c + s)⟩
    ∧ (((buildParams store r c (some s) (some m)).1.getD r bpEmpty).sigma.getD
        spEmpty).value = some s
    ∧ (((buildParams store r c (some s) (some m)).1.getD r bpEmpty).amplitude.getD
        spEmpty).value =
        some (percentile 80 ((selRange m (c - 12 / 10 * s) (c + 12 / 10 * s)).map Prod.snd)
          - percentile 20 ((selRange m (c - 12 / 10 * s) (c + 12 / 10 * s)).map Prod.snd))
    ∧ (((buildParams (buildParams store r c (some s) (some m)).1 r c2 none
          none).1.getD r bpEmpty).sigma.getD spEmpty).value = some s := by
  have hget : ∀ (st : ParamsStore) (v : BandParams), r < st.length →
      (st.set r v).getD r bpEmpty = v := by
    intro st v hr
    simp [List.getD_eq_getElem?_getD, List.getElem?_set_self hr]
  have hv1 := hget store
    (buildParamsVal (store.getD r bpEmpty) c (some s) (some m)) h
  refine ⟨rfl, rfl, ?_, ?_, ?_, ?_⟩
  · rw [show (buildParams store r c (some s) (some m)).1 =
      store.set r (buildParamsVal (store.getD r bpEmpty) c (some s) (some m)) from rfl]
    rw [hv1]
    simp [buildParamsVal]
  · rw [show (buildParams store r c (some s) (some m)).1 =
      store.set r (buildParamsVal (store.getD r bpEmpty) c (some s) (some m)) from rfl]
    rw [hv1]
    simp [buildParamsVal]
  · rw [show (buildParams store r c (some s) (some m)).1 =
      store.set r (buildParamsVal (store.getD r bpEmpty) c (some s) (some m)) from rfl]
    rw [hv1]
    simp [buildParamsVal]
  · have hlen : r < ((buildParams store r c (some s) (some m)).1).length := by
      rw [show (buildParams store r c (some s) (some m)).1 =
        store.set r (buildParamsVal (store.getD r bpEmpty) c (some s) (some m)) from rfl]
      simpa using h
    have hv2 := hget ((buildParams store r c (some s) (some m)).1)
      (buildParamsVal (((buildParams store r c (some s) (some m)).1).getD r bpEmpty)
        c2 none none) hlen
    rw [show (buildParams (buildParams store r c (some s) (some m)).1 r c2 none none).1 =
      ((buildParams store r c (some s) (some m)).1).set r
        (buildParamsVal (((buildParams store r c (some s) (some m)).1).getD r bpEmpty)
          c2 none none) from rfl]
    rw [hv2]
    rw [show (buildParams store r c (some s) (some m)).1 =
      store.set r (buildParamsVal (store.getD r bpEmpty) c (some s) (some m)) from rfl]
    rw [hv1]
    simp [buildParamsVal]

/-- Witness for C10 on a one-cell store. -/
theorem build_params_updates_in_place_witness :
    (0 : ParamsRef) < ([bpEmpty] : ParamsStore).length
    ∧ ((buildParams [bpEmpty] 0 1 (some (1 / 2)) (some [(1, 3)])).2 = 0
      ∧ (buildParams [bpEmpty] 0 1 (some (1 / 2)) (some [(1, 3)])).1 =
          ([bpEmpty] : ParamsStore).set 0
            (buildParamsVal (([bpEmpty] : ParamsStore).getD 0 bpEmpty) 1
              (some (1 / 2)) (some [(1, 3)]))
      ∧ ((buildParams [bpEmpty] 0 1 (some (1 / 2)) (some [(1, 3)])).1.getD 0
          bpEmpty).center = some ⟨some 1, some (1 - 1 / 2), some (1 + 1 / 2)⟩
      ∧ (((buildParams [bpEmpty] 0 1 (some (1 / 2)) (some [(1, 3)])).1.getD 0
          bpEmpty).sigma.getD spEmpty).value = some (1 / 2)
      ∧ (((buildParams [bpEmpty] 0 1 (some (1 / 2)) (some [(1, 3)])).1.getD 0
          bpEmpty).amplitude.getD spEmpty).value =
          some (percentile 80 ((selRange [(1, 3)] (1 - 12 / 10 * (1 / 2))
              (1 + 12 / 10 * (1 / 2))).map Prod.snd)
            - percentile 20 ((selRange [(1, 3)] (1 - 12 / 10 * (1 / 2))
              (1 + 12 / 10 * (1 / 2))).map Prod.snd))
      ∧ (((buildParams (buildParams [bpEmpty] 0 1 (some (1 / 2))
            (some [(1, 3)])).1 0 2 none none).1.getD 0 bpEmpty).sigma.getD
          spEmpty).value = some (1 / 2)) :=
  ⟨by simp, build_params_updates_in_place [bpEmpty] 0 1 2 (1 / 2) [(1, 3)] (by simp)⟩

end Arpes
